import Mathlib

/-!
# Verification of the code-painting coverage action

A shallow embedding, in Lean 4, of the core of
`.github/actions/code-painting/index.js`: the path normalizer
(`normalizeToRepoRel`), the LCOV trace parser (`parseLcov`), the per-line
coverage classification used by the renderers, the quality gate, the HTML
escaper (`escapeHtml`), the coverage-summary reader (`readCoverageSummary`)
and the PR-comment synchronizer (`upsertPrComment`).

JavaScript strings are modelled as `List Char` (`Str`); JavaScript finite
numbers as `ℚ` (every finite IEEE double is rational); `null`/absent values
as `Option`.  JavaScript `Number(string)` coercion is abstracted as a
parameter `jsNum : Str → Option ℚ` returning `none` exactly when the result
is not a finite number; the theorems about the trace parser hold for every
such coercion function.
-/

namespace CodePainting

/-- JavaScript strings, modelled as lists of characters. -/
abbrev Str := List Char

/-- The forward-slash path separator. -/
def slashChar : Char := '/'

/-- The backslash path separator. -/
def backslashChar : Char := '\\'

/-- The apostrophe character (code point 39). -/
def aposChar : Char := Char.ofNat 39

/- ## Generic JS-style helpers -/

/-- `s.replace(/\\/g, '/')`: replace every backslash by a forward slash. -/
def normSlashes (s : Str) : Str :=
  s.map (fun c => if c = backslashChar then slashChar else c)

/-- `s.replace(/\/+$/, '')`: strip every trailing forward slash. -/
def stripTrailingSlashes (s : Str) : Str :=
  (s.reverse.dropWhile (fun c => c = slashChar)).reverse

/-- An ASCII approximation of the JavaScript whitespace class used by
`String.prototype.trim`. -/
def isJsWs (c : Char) : Bool :=
  c = ' ' || c = '\t' || c = '\n' || c = '\r' || c = Char.ofNat 11 || c = Char.ofNat 12

/-- `s.trim()`: drop whitespace from both ends. -/
def jsTrim (s : Str) : Str :=
  ((s.dropWhile isJsWs).reverse.dropWhile isJsWs).reverse

/-- Largest `i ≤ n` with `P i = true`, scanning downward from `n`
(the search order of `String.prototype.lastIndexOf`). -/
def findLastFrom (P : Nat → Bool) : Nat → Option Nat
  | 0 => if P 0 then some 0 else none
  | n + 1 => if P (n + 1) then some (n + 1) else findLastFrom P n

/-- `s.lastIndexOf(sub)`: the largest index at which `sub` occurs in `s`
(`none` for the JavaScript result `-1`). -/
def lastIndexOf (s sub : Str) : Option Nat :=
  findLastFrom (fun i => sub.isPrefixOf (s.drop i)) s.length

/-- `sub` occurs in `s` at position `i`. -/
def occursAt (sub s : Str) (i : Nat) : Bool :=
  sub.isPrefixOf (s.drop i)

/-- Node's `path.posix.basename`: strip trailing slashes, then keep the last
path component; an all-slash input yields `"/"`, the empty input `""`. -/
def basename (s : Str) : Str :=
  if s = [] then []
  else
    let t := stripTrailingSlashes s
    if t = [] then [slashChar]
    else (t.reverse.takeWhile (fun c => c ≠ slashChar)).reverse

/- ## Path Normalizer (`normalizeToRepoRel`, index.js lines 47–64) -/

/-- The `'/src/'` path segment. -/
def srcSeg : Str := ['/', 's', 'r', 'c', '/']

/-- The `'/tests/'` path segment. -/
def testsSeg : Str := ['/', 't', 'e', 's', 't', 's', '/']

/-- `normalizeToRepoRel(repoRoot, filePath)`: map a coverage-tool or
stack-trace path to a repository-relative path; `none` models the JS `null`
returned for a falsy (empty) input path. -/
def normalizeToRepoRel (repoRoot filePath : Str) : Option Str :=
  if filePath = [] then none
  else
    let norm := normSlashes filePath
    let rootNorm := stripTrailingSlashes (normSlashes repoRoot)
    if (rootNorm ++ [slashChar]).isPrefixOf norm then
      some (norm.drop (rootNorm.length + 1))
    else
      match lastIndexOf norm srcSeg with
      | some i => some (norm.drop (i + 1))
      | none =>
        match lastIndexOf norm testsSeg with
        | some i => some (norm.drop (i + 1))
        | none => some (basename norm)

/- ## Quality gate (index.js lines 163–164 and 630–635) -/

/-- The string `"PASS"`. -/
def passStr : Str := ['P', 'A', 'S', 'S']

/-- The string `"FAIL"`. -/
def failStr : Str := ['F', 'A', 'I', 'L']

/-- `asNumber(v, def)`: a JS value that is a finite number is kept, anything
else (absent, `null`, `NaN`, non-numeric) falls back to the default. -/
def asNumber (v : Option ℚ) (d : ℚ) : ℚ := v.getD d

/-- The quality-gate verdict: `linePct >= threshold ? 'PASS' : 'FAIL'`
(index.js line 164 and line 634). -/
def qualityGateStatus (value threshold : ℚ) : Str :=
  if threshold ≤ value then passStr else failStr

/- ## Ordered association maps (JS `Map`: `set` overwrites in place, else appends) -/

/-- `Map.get`: first binding of the key, if any. -/
def mapGet {α β : Type} [DecidableEq α] : List (α × β) → α → Option β
  | [], _ => none
  | (k, v) :: rest, a => if k = a then some v else mapGet rest a

/-- `Map.set`: overwrite the existing binding in place, else append. -/
def mapSet {α β : Type} [DecidableEq α] : List (α × β) → α → β → List (α × β)
  | [], a, b => [(a, b)]
  | (k, v) :: rest, a, b => if k = a then (a, b) :: rest else (k, v) :: mapSet rest a b

/- ## Coverage Trace Parser (`parseLcov`, index.js lines 66–96) -/

/-- The `"SF:"` record tag. -/
def sfTag : Str := ['S', 'F', ':']

/-- The `"DA:"` record tag. -/
def daTag : Str := ['D', 'A', ':']

/-- The `"end_of_record"` marker line. -/
def eorStr : Str := ['e', 'n', 'd', '_', 'o', 'f', '_', 'r', 'e', 'c', 'o', 'r', 'd']

/-- JS `split(',')` — split at every comma; always returns at least one
(possibly empty) field. -/
def splitComma : Str → List Str
  | [] => [[]]
  | c :: rest =>
    if c = ',' then [] :: splitComma rest
    else
      match splitComma rest with
      | [] => [[c]]
      | p :: ps => (c :: p) :: ps

/-- Parsing of one `DA:` payload `rest` into `(lineNo, hits)`:
`const [lineStr, hitsStr] = rest.split(','); Number(lineStr); Number(hitsStr)`,
keeping the pair only when both coerce to finite numbers
(`Number(undefined)` for a missing second field is `NaN`, hence `none`). -/
def daParse (jsNum : Str → Option ℚ) (rest : Str) : Option (ℚ × ℚ) :=
  let parts := splitComma rest
  let lineNo := jsNum (parts.headD [])
  let hits :=
    match parts with
    | _ :: h :: _ => jsNum h
    | _ => none
  match lineNo, hits with
  | some l, some h => some (l, h)
  | _, _ => none

/-- Parser state: the accumulated file map (keyed by the possibly-`null`
normalized path) and the current file (`currentFile`; `none` models JS
`null`). `currentLines` of the source is always the binding of
`currentFile` in `files`, so it is not stored separately. -/
structure LcovState where
  files : List (Option Str × List (ℚ × ℚ))
  current : Option Str

/-- JS truthiness of `currentFile` (a string is falsy exactly when empty,
`null` is falsy); the guard `currentFile && currentLines` of line 81 reduces
to this, since `currentLines` is a (truthy) `Map` whenever `currentFile` is
truthy. -/
def truthyStr : Option Str → Bool
  | some s => s ≠ []
  | none => false

/-- One step of the trace parser's state machine on one raw input line. -/
def parseLcovLine (jsNum : Str → Option ℚ) (repoRoot : Str)
    (st : LcovState) (raw : Str) : LcovState :=
  if sfTag.isPrefixOf raw then
    let sf := jsTrim (raw.drop 3)
    let rel := normalizeToRepoRel repoRoot sf
    let files := if (mapGet st.files rel).isSome then st.files else mapSet st.files rel []
    { files := files, current := rel }
  else if daTag.isPrefixOf raw && truthyStr st.current then
    match daParse jsNum (raw.drop 3) with
    | some (lineNo, hits) =>
      let cur := (mapGet st.files st.current).getD []
      { st with files := mapSet st.files st.current (mapSet cur lineNo hits) }
    | none => st
  else if raw = eorStr then
    { st with current := none }
  else st

/-- `parseLcov(lcovText, repoRoot)` over the already-split list of input
lines: fold the state machine and return the per-file line-hit map. -/
def parseLcov (jsNum : Str → Option ℚ) (repoRoot : Str) (lines : List Str) :
    List (Option Str × List (ℚ × ℚ)) :=
  (lines.foldl (parseLcovLine jsNum repoRoot) { files := [], current := none }).files

/- ## File coverage records and the per-line classification
   (index.js lines 176–189 and 383–390) -/

/-- The per-file record assembled in `main` (index.js lines 607–614). -/
structure FileCoverageRecord where
  relPath : Str
  sourceLines : List Str
  lineHits : List (ℚ × ℚ)
  failingLines : List ℚ
  fileCoveragePct : Option ℚ

/-- The three-way per-line status of the renderers. -/
inductive LineStatus where
  | uncovered
  | coveredFailing
  | coveredPassing
deriving DecidableEq

/-- The classification computed identically in `buildHtmlReport`
(lines 386–389), `buildHtmlCodePaintingSummary` (lines 177–189) and
`buildCodePaintingMarkdown` (lines 289–298):
`hits = lineHits.get(lineNo) ?? 0; isCovered = hits > 0;
isFail = isCovered && failingLines.has(lineNo)`. -/
def classifyLine (f : FileCoverageRecord) (lineNo : Nat) : LineStatus :=
  let hits := (mapGet f.lineHits (lineNo : ℚ)).getD 0
  let isCovered : Bool := decide (0 < hits)
  let isFail : Bool := isCovered && decide ((lineNo : ℚ) ∈ f.failingLines)
  if isFail then .coveredFailing
  else if isCovered then .coveredPassing
  else .uncovered

/- ## HTML escaping (`escapeHtml`, index.js lines 38–45) -/

/-- One global single-character replacement, `s.replace(/c/g, rep)`. -/
def replaceAllChar (c : Char) (rep : Str) : Str → Str
  | [] => []
  | a :: rest => (if a = c then rep else [a]) ++ replaceAllChar c rep rest

/-- The entity `"&amp;"`. -/
def ampEnt : Str := ['&', 'a', 'm', 'p', ';']

/-- The entity `"&lt;"`. -/
def ltEnt : Str := ['&', 'l', 't', ';']

/-- The entity `"&gt;"`. -/
def gtEnt : Str := ['&', 'g', 't', ';']

/-- The entity `"&quot;"`. -/
def quotEnt : Str := ['&', 'q', 'u', 'o', 't', ';']

/-- The entity `"&#39;"`. -/
def aposEnt : Str := ['&', '#', '3', '9', ';']

/-- `escapeHtml(s)`: the five sequential global replacements of the source,
in source order (`&` first, then `<`, `>`, `"`, `'`). -/
def escapeHtml (s : Str) : Str :=
  replaceAllChar aposChar aposEnt
    (replaceAllChar '"' quotEnt
      (replaceAllChar '>' gtEnt
        (replaceAllChar '<' ltEnt
          (replaceAllChar '&' ampEnt s))))

/-- The property claimed of escaped output: scanning left to right, none of
the five reserved characters occurs, except that an `&` must begin one of
the five entity replacements (whose body is then skipped). -/
def wellEscaped : Str → Bool
  | [] => true
  | c :: rest =>
    if c = '&' then
      if (['a', 'm', 'p', ';'] : Str).isPrefixOf rest then wellEscaped (rest.drop 4)
      else if (['l', 't', ';'] : Str).isPrefixOf rest then wellEscaped (rest.drop 3)
      else if (['g', 't', ';'] : Str).isPrefixOf rest then wellEscaped (rest.drop 3)
      else if (['q', 'u', 'o', 't', ';'] : Str).isPrefixOf rest then wellEscaped (rest.drop 5)
      else if (['#', '3', '9', ';'] : Str).isPrefixOf rest then wellEscaped (rest.drop 4)
      else false
    else if c = '<' || c = '>' || c = '"' || c = aposChar then false
    else wellEscaped rest
termination_by s => s.length
decreasing_by all_goals (simp [List.length_drop] <;> omega)

/- ## Coverage Summary Reader (`readCoverageSummary`, index.js lines 136–155) -/

/-- A metric sub-object of the summary JSON; each field may be absent. -/
structure MetricObj where
  covered : Option ℚ
  total : Option ℚ
  pct : Option ℚ
deriving DecidableEq

/-- The empty object `{}` used as the `||` fallback. -/
def emptyMetricObj : MetricObj := { covered := none, total := none, pct := none }

/-- The `total` record of the summary JSON; each sub-object may be absent. -/
structure TotalObj where
  lines : Option MetricObj
  branches : Option MetricObj
  functions : Option MetricObj
  statements : Option MetricObj
deriving DecidableEq

/-- The empty object `{}` used as the `raw.total || {}` fallback. -/
def emptyTotalObj : TotalObj :=
  { lines := none, branches := none, functions := none, statements := none }

/-- The summary JSON document: an optional `total` record plus the remaining
per-file entries (kept as-is, so their value type is a parameter). -/
structure SummaryJson (α : Type) where
  total : Option TotalObj
  perFile : List (Str × α)

/-- The four extracted total metrics. -/
structure Metrics where
  lines : MetricObj
  branches : MetricObj
  functions : MetricObj
  statements : MetricObj
deriving DecidableEq

/-- `readCoverageSummary`: pull the four metric sub-objects out of
`raw.total || {}`, each defaulting to `{}`, and pass the per-file entries
through unchanged. -/
def readCoverageSummary {α : Type} (raw : SummaryJson α) : Metrics × List (Str × α) :=
  let total := raw.total.getD emptyTotalObj
  ({ lines := total.lines.getD emptyMetricObj,
     branches := total.branches.getD emptyMetricObj,
     functions := total.functions.getD emptyMetricObj,
     statements := total.statements.getD emptyMetricObj },
   raw.perFile)

/-- The abstract `CoverageMetric` of the data model. -/
structure CoverageMetric where
  covered : ℚ
  total : ℚ
  percentage : ℚ
deriving DecidableEq

/-- The value a metric object denotes through the accessors the program
uses on it everywhere: `covered ?? 0`, `total ?? 0`, `asNumber(pct, 0)`. -/
def interpretMetric (m : MetricObj) : CoverageMetric :=
  { covered := m.covered.getD 0, total := m.total.getD 0, percentage := asNumber m.pct 0 }

/-- The all-zero `CoverageMetric`. -/
def zeroMetric : CoverageMetric := { covered := 0, total := 0, percentage := 0 }

/- ## Comment Synchronizer (`upsertPrComment`, index.js lines 542–565) -/

/-- `s.includes(sub)`: substring containment. -/
def jsIncludes (s sub : Str) : Bool := decide (sub <:+: s)

/-- A PR comment as returned by the comment-list API. -/
structure Comment where
  id : Nat
  body : Str
deriving DecidableEq

/-- The comment list of the target pull request, together with the next
identifier the server will assign (every existing id is smaller). -/
structure PrState where
  comments : List Comment
  nextId : Nat

/-- `POST /issues/{n}/comments`: append a fresh comment. -/
def createComment (body : Str) (st : PrState) : PrState :=
  { comments := st.comments ++ [{ id := st.nextId, body := body }],
    nextId := st.nextId + 1 }

/-- `DELETE /issues/comments/{id}`: remove the comment with that id. -/
def deleteComment (cid : Nat) (st : PrState) : PrState :=
  { st with comments := st.comments.filter (fun c => c.id ≠ cid) }

/-- `PATCH /issues/comments/{id}`: replace that comment's body in place. -/
def updateComment (cid : Nat) (body : Str) (st : PrState) : PrState :=
  { st with comments := st.comments.map (fun c => if c.id = cid then { c with body := body } else c) }

/-- The marked-comment search of line 546:
`comments.find(c => c.body.includes(marker))`. -/
def findMarked (comments : List Comment) (marker : Str) : Option Comment :=
  comments.find? (fun c => jsIncludes c.body marker)

/-- The string `"ADD"`. -/
def addStr : Str := ['A', 'D', 'D']

/-- The string `"REMOVE"`. -/
def removeStr : Str := ['R', 'E', 'M', 'O', 'V', 'E']

/-- The string `"UPDATE"`. -/
def updateStr : Str := ['U', 'P', 'D', 'A', 'T', 'E']

/-- `upsertPrComment` as a transformer of the comment-list state: list, find
the first marker-bearing comment, then create / delete-and-create / edit
according to the strategy, exactly in the branch order of lines 548–564. -/
def upsertPrComment (strategy marker body : Str) (st : PrState) : PrState :=
  match findMarked st.comments marker with
  | none => createComment body st
  | some existing =>
    if strategy = addStr then createComment body st
    else if strategy = removeStr then createComment body (deleteComment existing.id st)
    else updateComment existing.id body st

/- ## Helper lemmas -/

theorem mapGet_mem {α β : Type} [DecidableEq α] {m : List (α × β)} {k : α} {v : β}
    (h : mapGet m k = some v) : (k, v) ∈ m := by
  induction m with
  | nil => simp [mapGet] at h
  | cons p rest ih =>
    obtain ⟨k', v'⟩ := p
    by_cases hk : k' = k
    · subst hk
      simp [mapGet] at h
      simp [h]
    · simp [mapGet, hk] at h
      exact List.mem_cons_of_mem _ (ih h)

/- ## Claim theorems -/

/-- **C1.** For every `FileCoverageRecord` (hit counts non-negative, per the
data model) and every 1-based line number of its `sourceLines`, the
renderers' derived classification is a strict three-way partition:
`uncovered` iff the line is not in `lineHits` or its hit count is 0,
`covered-failing` iff its hit count is positive and it is a failing line,
`covered-passing` iff its hit count is positive and it is not a failing
line; since `classifyLine` returns exactly one of the three statuses, the
three conditions are exhaustive and mutually exclusive. -/
theorem c1_line_status_partition :
    ∀ (f : FileCoverageRecord) (n : Nat),
      (∀ p ∈ f.lineHits, 0 ≤ p.2) →
      1 ≤ n → n ≤ f.sourceLines.length →
      ((classifyLine f n = .uncovered ↔
          (mapGet f.lineHits (n : ℚ) = none ∨ mapGet f.lineHits (n : ℚ) = some 0)) ∧
       (classifyLine f n = .coveredFailing ↔
          ((∃ h, mapGet f.lineHits (n : ℚ) = some h ∧ 0 < h) ∧ (n : ℚ) ∈ f.failingLines)) ∧
       (classifyLine f n = .coveredPassing ↔
          ((∃ h, mapGet f.lineHits (n : ℚ) = some h ∧ 0 < h) ∧ ¬ (n : ℚ) ∈ f.failingLines))) := by
  intro f n hpos _ _
  cases hm : mapGet f.lineHits (n : ℚ) with
  | none =>
    simp [classifyLine, hm]
  | some q =>
    have hq0 : 0 ≤ q := hpos _ (mapGet_mem hm)
    by_cases hq : 0 < q
    · by_cases hf : (n : ℚ) ∈ f.failingLines
      · simp [classifyLine, hm, hq, hf, ne_of_gt hq]
      · simp [classifyLine, hm, hq, hf, ne_of_gt hq]
    · have hq' : q = 0 := le_antisymm (not_lt.mp hq) hq0
      subst hq'
      simp [classifyLine, hm]

/-- Witness for C1 at a concrete record: line 1 is hit twice and not
failing, so it classifies as `covered-passing` by the third equivalence. -/
theorem c1_witness :
    (∀ p ∈ [((1 : ℚ), (2 : ℚ))], 0 ≤ p.2) ∧
    classifyLine
      { relPath := [], sourceLines := [['x']], lineHits := [(1, 2)],
        failingLines := [], fileCoveragePct := none } 1 = .coveredPassing := by
  refine ⟨by decide, ?_⟩
  refine ((c1_line_status_partition
      { relPath := [], sourceLines := [['x']], lineHits := [(1, 2)],
        failingLines := [], fileCoveragePct := none } 1
      (by decide) (by decide) (by decide)).2.2).mpr ?_
  exact ⟨⟨2, by decide, by decide⟩, by decide⟩

/-- **C2.** The quality gate is `PASS` iff `value ≥ threshold`, else `FAIL`;
at threshold 80 a value of exactly 80 passes and 79.99 fails. -/
theorem c2_quality_gate_boundary :
    ∀ value threshold : ℚ,
      (qualityGateStatus value threshold = passStr ↔ threshold ≤ value) ∧
      (qualityGateStatus value threshold = failStr ↔ ¬ threshold ≤ value) ∧
      qualityGateStatus 80 80 = passStr ∧
      qualityGateStatus (7999 / 100) 80 = failStr := by
  intro value threshold
  refine ⟨?_, ?_, ?_, ?_⟩
  · by_cases h : threshold ≤ value <;> simp [qualityGateStatus, h, passStr, failStr]
  · by_cases h : threshold ≤ value <;> simp [qualityGateStatus, h, passStr, failStr]
  · simp [qualityGateStatus]
  · have h : ¬ (80 : ℚ) ≤ 7999 / 100 := by norm_num
    simp [qualityGateStatus, h]

/-- **C7.** In `readCoverageSummary`, each of the four metric sub-objects
missing from the `total` record yields a metric that denotes (through the
accessors the program uses: `covered ?? 0`, `total ?? 0`, `asNumber(pct,0)`)
the all-zero `CoverageMetric`. -/
theorem c7_missing_metric_defaults_zero :
    ∀ {α : Type} (raw : SummaryJson α),
      ((raw.total.getD emptyTotalObj).lines = none →
        interpretMetric (readCoverageSummary raw).1.lines = zeroMetric) ∧
      ((raw.total.getD emptyTotalObj).branches = none →
        interpretMetric (readCoverageSummary raw).1.branches = zeroMetric) ∧
      ((raw.total.getD emptyTotalObj).functions = none →
        interpretMetric (readCoverageSummary raw).1.functions = zeroMetric) ∧
      ((raw.total.getD emptyTotalObj).statements = none →
        interpretMetric (readCoverageSummary raw).1.statements = zeroMetric) := by
  intro α raw
  refine ⟨?_, ?_, ?_, ?_⟩ <;>
    (intro h;
     simp [readCoverageSummary, interpretMetric, h, emptyMetricObj, zeroMetric, asNumber])

/-- Witness for C7: a summary whose `total` record has all four sub-objects
missing; each extracted metric denotes the all-zero `CoverageMetric`. -/
theorem c7_witness :
    interpretMetric (readCoverageSummary
      ({ total := some emptyTotalObj, perFile := [] } : SummaryJson Unit)).1.lines = zeroMetric ∧
    interpretMetric (readCoverageSummary
      ({ total := some emptyTotalObj, perFile := [] } : SummaryJson Unit)).1.branches = zeroMetric ∧
    interpretMetric (readCoverageSummary
      ({ total := some emptyTotalObj, perFile := [] } : SummaryJson Unit)).1.functions = zeroMetric ∧
    interpretMetric (readCoverageSummary
      ({ total := some emptyTotalObj, perFile := [] } : SummaryJson Unit)).1.statements = zeroMetric := by
  have t := c7_missing_metric_defaults_zero
    ({ total := some emptyTotalObj, perFile := [] } : SummaryJson Unit)
  exact ⟨t.1 rfl, t.2.1 rfl, t.2.2.1 rfl, t.2.2.2 rfl⟩

/- ## C9: escaping -/

/-- The per-character expansion that the five sequential replacements of
`escapeHtml` amount to. -/
def escChar (c : Char) : Str :=
  if c = '&' then ampEnt
  else if c = '<' then ltEnt
  else if c = '>' then gtEnt
  else if c = '"' then quotEnt
  else if c = aposChar then aposEnt
  else [c]

theorem replaceAllChar_append (c : Char) (rep : Str) (s t : Str) :
    replaceAllChar c rep (s ++ t) = replaceAllChar c rep s ++ replaceAllChar c rep t := by
  induction s with
  | nil => simp [replaceAllChar]
  | cons a rest ih => simp [replaceAllChar, ih]

theorem escapeHtml_cons (c : Char) (s : Str) :
    escapeHtml (c :: s) = escChar c ++ escapeHtml s := by
  show escapeHtml ([c] ++ s) = _
  by_cases h1 : c = '&'
  · subst h1
    simp [escapeHtml, replaceAllChar, replaceAllChar_append, escChar, ampEnt, ltEnt, gtEnt,
      quotEnt, aposEnt, aposChar]
  · by_cases h2 : c = '<'
    · subst h2
      simp [escapeHtml, replaceAllChar, replaceAllChar_append, escChar, ampEnt, ltEnt, gtEnt,
        quotEnt, aposEnt, aposChar]
    · by_cases h3 : c = '>'
      · subst h3
        simp [escapeHtml, replaceAllChar, replaceAllChar_append, escChar, ampEnt, ltEnt, gtEnt,
          quotEnt, aposEnt, aposChar]
      · by_cases h4 : c = '"'
        · subst h4
          simp [escapeHtml, replaceAllChar, replaceAllChar_append, escChar, ampEnt, ltEnt, gtEnt,
            quotEnt, aposEnt, aposChar]
        · by_cases h5 : c = aposChar
          · subst h5
            simp [escapeHtml, replaceAllChar, replaceAllChar_append, escChar, ampEnt, ltEnt,
              gtEnt, quotEnt, aposEnt, aposChar]
          · have hs : ∀ d : Char, d = '&' ∨ d = '<' ∨ d = '>' ∨ d = '"' ∨ d = aposChar →
                c ≠ d := by
              rintro d (rfl | rfl | rfl | rfl | rfl) <;> assumption
            simp [escapeHtml, replaceAllChar, replaceAllChar_append, escChar,
              h1, h2, h3, h4, h5]

theorem wellEscaped_ampEnt (t : Str) : wellEscaped (ampEnt ++ t) = wellEscaped t := by
  show wellEscaped ('&' :: ('a' :: 'm' :: 'p' :: ';' :: t)) = wellEscaped t
  rw [wellEscaped]
  simp [List.isPrefixOf]

theorem wellEscaped_ltEnt (t : Str) : wellEscaped (ltEnt ++ t) = wellEscaped t := by
  show wellEscaped ('&' :: ('l' :: 't' :: ';' :: t)) = wellEscaped t
  rw [wellEscaped]
  simp [List.isPrefixOf]

theorem wellEscaped_gtEnt (t : Str) : wellEscaped (gtEnt ++ t) = wellEscaped t := by
  show wellEscaped ('&' :: ('g' :: 't' :: ';' :: t)) = wellEscaped t
  rw [wellEscaped]
  simp [List.isPrefixOf]

theorem wellEscaped_quotEnt (t : Str) : wellEscaped (quotEnt ++ t) = wellEscaped t := by
  show wellEscaped ('&' :: ('q' :: 'u' :: 'o' :: 't' :: ';' :: t)) = wellEscaped t
  rw [wellEscaped]
  simp [List.isPrefixOf]

theorem wellEscaped_aposEnt (t : Str) : wellEscaped (aposEnt ++ t) = wellEscaped t := by
  show wellEscaped ('&' :: ('#' :: '3' :: '9' :: ';' :: t)) = wellEscaped t
  rw [wellEscaped]
  simp [List.isPrefixOf]

theorem wellEscaped_cons_safe {c : Char} (t : Str)
    (h1 : c ≠ '&') (h2 : c ≠ '<') (h3 : c ≠ '>') (h4 : c ≠ '"') (h5 : c ≠ aposChar) :
    wellEscaped (c :: t) = wellEscaped t := by
  rw [wellEscaped]
  simp [h1, h2, h3, h4, h5]

/-- **C9.** For every input string, the output of `escapeHtml` contains none
of the five reserved characters `& < > " '` except as part of the entity
replacements `&amp; &lt; &gt; &quot; &#39;` — stated via the scanner
`wellEscaped`, which rejects any stray reserved character and accepts an
`&` only when it begins one of those five entities.  (`buildHtmlReport` and
`buildHtmlCodePaintingSummary` route every piece of arbitrary text — source
lines, file paths, the run title — through `escapeHtml`: index.js lines
196, 208, 221, 375–377, 394, 402, 404, 422, 495.) -/
theorem c9_escape_html_well_escaped :
    ∀ s : Str, wellEscaped (escapeHtml s) = true := by
  intro s
  induction s with
  | nil => rw [show escapeHtml [] = [] from rfl, wellEscaped]
  | cons c rest ih =>
    rw [escapeHtml_cons]
    by_cases h1 : c = '&'
    · subst h1; rw [show escChar '&' = ampEnt from rfl, wellEscaped_ampEnt]; exact ih
    · by_cases h2 : c = '<'
      · subst h2; rw [show escChar '<' = ltEnt from rfl, wellEscaped_ltEnt]; exact ih
      · by_cases h3 : c = '>'
        · subst h3; rw [show escChar '>' = gtEnt from rfl, wellEscaped_gtEnt]; exact ih
        · by_cases h4 : c = '"'
          · subst h4; rw [show escChar '"' = quotEnt from rfl, wellEscaped_quotEnt]; exact ih
          · by_cases h5 : c = aposChar
            · subst h5
              rw [show escChar aposChar = aposEnt from rfl, wellEscaped_aposEnt]
              exact ih
            · rw [show escChar c = [c] from by simp [escChar, h1, h2, h3, h4, h5]]
              rw [List.singleton_append, wellEscaped_cons_safe (escapeHtml rest) h1 h2 h3 h4 h5]
              exact ih

/- ## C5, C6: the path normalizer -/

theorem findLastFrom_eq_some {P : Nat → Bool} {n i : Nat}
    (h : findLastFrom P n = some i) :
    P i = true ∧ i ≤ n ∧ ∀ j, i < j → j ≤ n → P j = false := by
  induction n with
  | zero =>
    by_cases h0 : P 0 = true
    · simp [findLastFrom, h0] at h
      subst h
      exact ⟨h0, le_refl _, fun j hj hj' => absurd (Nat.lt_of_lt_of_le hj hj') (lt_irrefl _)⟩
    · simp [findLastFrom, Bool.of_not_eq_true h0] at h
  | succ n ih =>
    by_cases hs : P (n + 1) = true
    · simp [findLastFrom, hs] at h
      subst h
      refine ⟨hs, le_refl _, fun j hj hj' => absurd (Nat.lt_of_lt_of_le hj hj') (lt_irrefl _)⟩
    · simp only [findLastFrom, Bool.of_not_eq_true hs, if_false] at h
      obtain ⟨hp, hle, hlast⟩ := ih h
      refine ⟨hp, Nat.le_succ_of_le hle, fun j hj hj' => ?_⟩
      rcases Nat.lt_or_ge j (n + 1) with hlt | hge
      · exact hlast j hj (Nat.lt_succ_iff.mp hlt)
      · have : j = n + 1 := Nat.le_antisymm hj' hge
        subst this
        exact Bool.of_not_eq_true hs

theorem findLastFrom_eq_none {P : Nat → Bool} {n : Nat}
    (h : findLastFrom P n = none) : ∀ j, j ≤ n → P j = false := by
  induction n with
  | zero =>
    intro j hj
    interval_cases j
    by_cases h0 : P 0 = true
    · simp [findLastFrom, h0] at h
    · exact Bool.of_not_eq_true h0
  | succ n ih =>
    by_cases hs : P (n + 1) = true
    · simp [findLastFrom, hs] at h
    · simp only [findLastFrom, Bool.of_not_eq_true hs, if_false] at h
      intro j hj
      rcases Nat.lt_or_ge j (n + 1) with hlt | hge
      · exact ih h j (Nat.lt_succ_iff.mp hlt)
      · have : j = n + 1 := Nat.le_antisymm hj hge
        subst this
        exact Bool.of_not_eq_true hs

/-- A nonempty needle cannot occur at or beyond the haystack's length. -/
theorem occursAt_false_of_ge {sub s : Str} {j : Nat}
    (hsub : sub ≠ []) (hj : s.length ≤ j) : occursAt sub s j = false := by
  unfold occursAt
  rw [List.drop_eq_nil_of_le hj]
  cases sub with
  | nil => exact absurd rfl hsub
  | cons a as => rfl

theorem lastIndexOf_eq_some_of {s sub : Str} {i : Nat} (hsub : sub ≠ [])
    (hocc : occursAt sub s i = true)
    (hlast : ∀ j, i < j → occursAt sub s j = false) :
    lastIndexOf s sub = some i := by
  have hin : i ≤ s.length := by
    by_contra hgt
    rw [occursAt_false_of_ge hsub (Nat.le_of_lt (Nat.lt_of_not_le hgt))] at hocc
    exact Bool.false_ne_true hocc
  cases hf : findLastFrom (fun k => sub.isPrefixOf (s.drop k)) s.length with
  | none =>
    have := findLastFrom_eq_none hf i hin
    rw [show occursAt sub s i = sub.isPrefixOf (s.drop i) from rfl] at hocc
    rw [this] at hocc
    exact absurd hocc Bool.false_ne_true
  | some i' =>
    obtain ⟨hp, hle, hl⟩ := findLastFrom_eq_some hf
    rcases Nat.lt_trichotomy i i' with hlt | heq | hgt
    · have := hlast i' hlt
      rw [show occursAt sub s i' = sub.isPrefixOf (s.drop i') from rfl] at this
      rw [this] at hp
      exact absurd hp Bool.false_ne_true
    · rw [lastIndexOf, hf, heq]
    · have := hl i hgt hin
      rw [show occursAt sub s i = sub.isPrefixOf (s.drop i) from rfl] at hocc
      rw [this] at hocc
      exact absurd hocc Bool.false_ne_true

theorem lastIndexOf_eq_none_of {s sub : Str}
    (h : ∀ i, i ≤ s.length → occursAt sub s i = false) :
    lastIndexOf s sub = none := by
  cases hf : findLastFrom (fun k => sub.isPrefixOf (s.drop k)) s.length with
  | none => rw [lastIndexOf, hf]
  | some i =>
    obtain ⟨hp, hle, _⟩ := findLastFrom_eq_some hf
    have := h i hle
    rw [show occursAt sub s i = sub.isPrefixOf (s.drop i) from rfl] at this
    rw [this] at hp
    exact absurd hp Bool.false_ne_true

/-- **C5.** `normalizeToRepoRel` follows the spec's four ordered rules with
first match winning — (1) strip the (separator-normalized,
trailing-separator-stripped) repository root when the normalized path
starts with it plus a separator; (2) else cut at the *last* occurrence of
the segment `/src/`, keeping the segment minus its leading separator;
(3) else the same for `/tests/`; (4) else the bare final path component —
and returns `null` (`none`) exactly on the empty (falsy) input path.  The
`/src/` and `/tests/` rules are characterized declaratively: the returned
cut point is an occurrence of the segment after which no further
occurrence exists. -/
theorem c5_normalize_four_rules :
    ∀ repoRoot p : Str,
      (p = [] → normalizeToRepoRel repoRoot p = none) ∧
      (p ≠ [] →
        ((stripTrailingSlashes (normSlashes repoRoot) ++ [slashChar]).isPrefixOf
            (normSlashes p) = true →
          normalizeToRepoRel repoRoot p =
            some ((normSlashes p).drop
              ((stripTrailingSlashes (normSlashes repoRoot)).length + 1))) ∧
        ((stripTrailingSlashes (normSlashes repoRoot) ++ [slashChar]).isPrefixOf
            (normSlashes p) = false →
          (∃ i, occursAt srcSeg (normSlashes p) i = true) →
          ∃ i, occursAt srcSeg (normSlashes p) i = true ∧
            (∀ j, i < j → occursAt srcSeg (normSlashes p) j = false) ∧
            normalizeToRepoRel repoRoot p = some ((normSlashes p).drop (i + 1))) ∧
        ((stripTrailingSlashes (normSlashes repoRoot) ++ [slashChar]).isPrefixOf
            (normSlashes p) = false →
          (∀ i, i ≤ (normSlashes p).length → occursAt srcSeg (normSlashes p) i = false) →
          (∃ i, occursAt testsSeg (normSlashes p) i = true) →
          ∃ i, occursAt testsSeg (normSlashes p) i = true ∧
            (∀ j, i < j → occursAt testsSeg (normSlashes p) j = false) ∧
            normalizeToRepoRel repoRoot p = some ((normSlashes p).drop (i + 1))) ∧
        ((stripTrailingSlashes (normSlashes repoRoot) ++ [slashChar]).isPrefixOf
            (normSlashes p) = false →
          (∀ i, i ≤ (normSlashes p).length → occursAt srcSeg (normSlashes p) i = false) →
          (∀ i, i ≤ (normSlashes p).length → occursAt testsSeg (normSlashes p) i = false) →
          normalizeToRepoRel repoRoot p = some (basename (normSlashes p)))) := by
  intro repoRoot p
  constructor
  · intro hp
    simp [normalizeToRepoRel, hp]
  · intro hp
    refine ⟨?_, ?_, ?_, ?_⟩
    · intro hroot
      simp [normalizeToRepoRel, hp, hroot]
    · intro hroot hocc
      obtain ⟨i0, hi0⟩ := hocc
      cases hf : lastIndexOf (normSlashes p) srcSeg with
      | none =>
        have hn : i0 ≤ (normSlashes p).length := by
          by_contra hgt
          rw [occursAt_false_of_ge (by decide) (Nat.le_of_lt (Nat.lt_of_not_le hgt))] at hi0
          exact Bool.false_ne_true hi0
        have := findLastFrom_eq_none hf i0 hn
        rw [show occursAt srcSeg (normSlashes p) i0 =
            srcSeg.isPrefixOf ((normSlashes p).drop i0) from rfl] at hi0
        rw [this] at hi0
        exact absurd hi0 Bool.false_ne_true
      | some i =>
        obtain ⟨hpI, hleI, hlastI⟩ := findLastFrom_eq_some hf
        refine ⟨i, hpI, ?_, ?_⟩
        · intro j hj
          rcases Nat.lt_or_ge ((normSlashes p).length) j with hbig | hsmall
          · exact occursAt_false_of_ge (by decide) (Nat.le_of_lt hbig)
          · exact hlastI j hj hsmall
        · simp [normalizeToRepoRel, hp, hroot, hf]
    · intro hroot hnosrc hocc
      obtain ⟨i0, hi0⟩ := hocc
      have hfsrc : lastIndexOf (normSlashes p) srcSeg = none :=
        lastIndexOf_eq_none_of hnosrc
      cases hf : lastIndexOf (normSlashes p) testsSeg with
      | none =>
        have hn : i0 ≤ (normSlashes p).length := by
          by_contra hgt
          rw [occursAt_false_of_ge (by decide) (Nat.le_of_lt (Nat.lt_of_not_le hgt))] at hi0
          exact Bool.false_ne_true hi0
        have := findLastFrom_eq_none hf i0 hn
        rw [show occursAt testsSeg (normSlashes p) i0 =
            testsSeg.isPrefixOf ((normSlashes p).drop i0) from rfl] at hi0
        rw [this] at hi0
        exact absurd hi0 Bool.false_ne_true
      | some i =>
        obtain ⟨hpI, hleI, hlastI⟩ := findLastFrom_eq_some hf
        refine ⟨i, hpI, ?_, ?_⟩
        · intro j hj
          rcases Nat.lt_or_ge ((normSlashes p).length) j with hbig | hsmall
          · exact occursAt_false_of_ge (by decide) (Nat.le_of_lt hbig)
          · exact hlastI j hj hsmall
        · simp [normalizeToRepoRel, hp, hroot, hfsrc, hf]
    · intro hroot hnosrc hnotests
      have hfsrc : lastIndexOf (normSlashes p) srcSeg = none :=
        lastIndexOf_eq_none_of hnosrc
      have hftests : lastIndexOf (normSlashes p) testsSeg = none :=
        lastIndexOf_eq_none_of hnotests
      simp [normalizeToRepoRel, hp, hroot, hfsrc, hftests]

/-- Witness for C5: rule 1 fires on `("/r", "/r/x")` (root stripped), rule 2
fires on `("/r", "a/src/b")` at the last `/src/` occurrence, and the empty
path returns `null`. -/
theorem c5_witness :
    normalizeToRepoRel ('/' :: 'r' :: []) [] = none ∧
    normalizeToRepoRel ('/' :: 'r' :: []) ('/' :: 'r' :: '/' :: 'x' :: []) =
      some ('x' :: []) ∧
    (∃ i, occursAt srcSeg (normSlashes ('a' :: '/' :: 's' :: 'r' :: 'c' :: '/' :: 'b' :: []))
        i = true ∧
      (∀ j, i < j →
        occursAt srcSeg (normSlashes ('a' :: '/' :: 's' :: 'r' :: 'c' :: '/' :: 'b' :: []))
          j = false) ∧
      normalizeToRepoRel ('/' :: 'r' :: []) ('a' :: '/' :: 's' :: 'r' :: 'c' :: '/' :: 'b' :: []) =
        some ((normSlashes ('a' :: '/' :: 's' :: 'r' :: 'c' :: '/' :: 'b' :: [])).drop (i + 1))) := by
  refine ⟨?_, ?_, ?_⟩
  · exact (c5_normalize_four_rules ('/' :: 'r' :: []) []).1 rfl
  · have h := ((c5_normalize_four_rules ('/' :: 'r' :: [])
      ('/' :: 'r' :: '/' :: 'x' :: [])).2 (by decide)).1 (by decide)
    simpa using h
  · exact (((c5_normalize_four_rules ('/' :: 'r' :: [])
      ('a' :: '/' :: 's' :: 'r' :: 'c' :: '/' :: 'b' :: [])).2 (by decide)).2.1
      (by decide) ⟨1, by decide⟩)

theorem normSlashes_no_backslash {s : Str} : ∀ c ∈ normSlashes s, c ≠ backslashChar := by
  intro c hc
  unfold normSlashes at hc
  obtain ⟨a, _, ha⟩ := List.mem_map.mp hc
  by_cases hab : a = backslashChar
  · simp [hab] at ha
    rw [← ha]
    decide
  · simp [hab] at ha
    rw [← ha]
    exact hab

theorem normSlashes_id {s : Str} (h : ∀ c ∈ s, c ≠ backslashChar) : normSlashes s = s := by
  induction s with
  | nil => rfl
  | cons a rest ih =>
    unfold normSlashes
    simp only [List.map_cons]
    rw [if_neg (h a (List.mem_cons_self a rest))]
    have := ih (fun c hc => h c (List.mem_cons_of_mem a hc))
    unfold normSlashes at this
    rw [this]

theorem dropWhile_eq_self_of_none {p : Char → Bool} {l : Str}
    (h : ∀ c ∈ l, p c = false) : l.dropWhile p = l := by
  cases l with
  | nil => rfl
  | cons a rest =>
    rw [List.dropWhile_cons, h a (List.mem_cons_self a rest)]
    simp

theorem takeWhile_eq_self_of_all {p : Char → Bool} {l : Str}
    (h : ∀ c ∈ l, p c = true) : l.takeWhile p = l := by
  induction l with
  | nil => rfl
  | cons a rest ih =>
    rw [List.takeWhile_cons, h a (List.mem_cons_self a rest),
      ih (fun c hc => h c (List.mem_cons_of_mem a hc))]
    simp

theorem basename_no_slash_id {q : Str} (hne : q ≠ [])
    (h : ∀ c ∈ q, c ≠ slashChar) : basename q = q := by
  unfold basename
  rw [if_neg hne]
  have hstrip : stripTrailingSlashes q = q := by
    unfold stripTrailingSlashes
    rw [dropWhile_eq_self_of_none (fun c hc => by
      rw [decide_eq_false (h c (List.mem_reverse.mp hc))]), List.reverse_reverse]
  rw [hstrip, if_neg hne]
  rw [takeWhile_eq_self_of_all (fun c hc => by
    rw [decide_eq_true_eq]
    exact h c (List.mem_reverse.mp hc)), List.reverse_reverse]

/-- Every successful output of `normalizeToRepoRel` is backslash-free
(outputs are carved out of the slash-normalized input). -/
theorem normalize_no_backslash {root p q : Str}
    (h : normalizeToRepoRel root p = some q) : ∀ c ∈ q, c ≠ backslashChar := by
  unfold normalizeToRepoRel at h
  by_cases hp : p = []
  · simp [hp] at h
  · rw [if_neg hp] at h
    simp only at h
    by_cases hroot : ((stripTrailingSlashes (normSlashes root)) ++ [slashChar]).isPrefixOf
        (normSlashes p) = true
    · rw [if_pos hroot] at h
      obtain rfl : (normSlashes p).drop ((stripTrailingSlashes (normSlashes root)).length + 1) = q :=
        Option.some.inj h
      intro c hc
      exact normSlashes_no_backslash c (List.mem_of_mem_drop hc)
    · rw [if_neg hroot] at h
      cases hsrc : lastIndexOf (normSlashes p) srcSeg with
      | some i =>
        rw [hsrc] at h
        obtain rfl : (normSlashes p).drop (i + 1) = q := Option.some.inj h
        intro c hc
        exact normSlashes_no_backslash c (List.mem_of_mem_drop hc)
      | none =>
        rw [hsrc] at h
        cases htests : lastIndexOf (normSlashes p) testsSeg with
        | some i =>
          rw [htests] at h
          obtain rfl : (normSlashes p).drop (i + 1) = q := Option.some.inj h
          intro c hc
          exact normSlashes_no_backslash c (List.mem_of_mem_drop hc)
        | none =>
          rw [htests] at h
          obtain rfl : basename (normSlashes p) = q := Option.some.inj h
          intro c hc
          unfold basename at hc
          by_cases hn : normSlashes p = []
          · rw [if_pos hn] at hc
            simp at hc
          · rw [if_neg hn] at hc
            simp only at hc
            by_cases ht : stripTrailingSlashes (normSlashes p) = []
            · rw [if_pos ht] at hc
              obtain rfl : c = slashChar := List.mem_singleton.mp hc
              decide
            · rw [if_neg ht] at hc
              have h1 : c ∈ stripTrailingSlashes (normSlashes p) := by
                have h2 := List.mem_reverse.mp hc
                have h3 : c ∈ (stripTrailingSlashes (normSlashes p)).reverse :=
                  (List.takeWhile_sublist _).subset h2
                exact List.mem_reverse.mp h3
              have h4 : c ∈ normSlashes p := by
                unfold stripTrailingSlashes at h1
                have h5 := List.mem_reverse.mp h1
                have h6 : c ∈ (normSlashes p).reverse :=
                  (List.dropWhile_sublist _).subset h5
                exact List.mem_reverse.mp h6
              exact normSlashes_no_backslash c h4

/-- **C6 (counterexample).** Path normalization is *not* idempotent: for
the relative path `repo/src/a.js` under root `repo`, the first
normalization yields `src/a.js` (rule 1, root stripped), but normalizing
that output again yields `a.js` (rule 4 — `src/a.js` has no `/src/`
segment with a leading separator and does not start with `repo/`), not
`src/a.js`. -/
theorem c6_counterexample :
    normalizeToRepoRel ('r' :: 'e' :: 'p' :: 'o' :: [])
        ('r' :: 'e' :: 'p' :: 'o' :: '/' :: 's' :: 'r' :: 'c' :: '/' :: 'a' :: '.' :: 'j' :: 's' :: []) =
      some ('s' :: 'r' :: 'c' :: '/' :: 'a' :: '.' :: 'j' :: 's' :: []) ∧
    ¬ normalizeToRepoRel ('r' :: 'e' :: 'p' :: 'o' :: [])
        ('s' :: 'r' :: 'c' :: '/' :: 'a' :: '.' :: 'j' :: 's' :: []) =
      some ('s' :: 'r' :: 'c' :: '/' :: 'a' :: '.' :: 'j' :: 's' :: []) := by
  decide

/-- **C6 (amended).** Normalization is idempotent exactly on
separator-free outputs: whenever `normalize(root, p)` returns a non-empty
path containing no `/` separator, applying `normalize` to that output
returns it unchanged.  (In general `normalize(root, normalize(root, p))`
differs from `normalize(root, p)` — see the counterexample — because a
root-stripped or `/src/`-anchored result still containing `/` is reduced
further, ultimately to its bare filename.) -/
theorem c6_amended_idempotent_on_separator_free :
    ∀ root p q : Str,
      normalizeToRepoRel root p = some q →
      q ≠ [] →
      (∀ c ∈ q, c ≠ slashChar) →
      normalizeToRepoRel root q = some q := by
  intro root p q hq hne hnoslash
  have hnb : ∀ c ∈ q, c ≠ backslashChar := normalize_no_backslash hq
  have hid : normSlashes q = q := normSlashes_id hnb
  have hpref : ((stripTrailingSlashes (normSlashes root)) ++ [slashChar]).isPrefixOf
      (normSlashes q) = false := by
    rw [hid]
    by_contra hcon
    have htrue : ((stripTrailingSlashes (normSlashes root)) ++ [slashChar]).isPrefixOf q = true :=
      Bool.of_not_eq_false hcon
    have hpfx := List.isPrefixOf_iff_prefix.mp htrue
    have hmem : slashChar ∈ q :=
      hpfx.sublist.subset (List.mem_append_right _ (List.mem_singleton_self _))
    exact hnoslash _ hmem rfl
  have hsrc : lastIndexOf (normSlashes q) srcSeg = none := by
    rw [hid]
    apply lastIndexOf_eq_none_of
    intro i _
    by_contra hcon
    have htrue : srcSeg.isPrefixOf (q.drop i) = true := Bool.of_not_eq_false hcon
    have hpfx := List.isPrefixOf_iff_prefix.mp htrue
    have hmem : slashChar ∈ q :=
      List.mem_of_mem_drop (hpfx.sublist.subset (by decide : slashChar ∈ srcSeg))
    exact hnoslash _ hmem rfl
  have htests : lastIndexOf (normSlashes q) testsSeg = none := by
    rw [hid]
    apply lastIndexOf_eq_none_of
    intro i _
    by_contra hcon
    have htrue : testsSeg.isPrefixOf (q.drop i) = true := Bool.of_not_eq_false hcon
    have hpfx := List.isPrefixOf_iff_prefix.mp htrue
    have hmem : slashChar ∈ q :=
      List.mem_of_mem_drop (hpfx.sublist.subset (by decide : slashChar ∈ testsSeg))
    exact hnoslash _ hmem rfl
  unfold normalizeToRepoRel
  rw [if_neg hne]
  simp only [hpref, Bool.false_eq_true, if_false, hsrc, htests]
  rw [hid, basename_no_slash_id hne hnoslash]

/-- Witness for C6 (amended): normalizing `/tmp/foo/a.js` under root `x`
yields the separator-free `a.js`, and re-normalizing `a.js` returns it
unchanged. -/
theorem c6_witness :
    normalizeToRepoRel ('x' :: [])
        ('/' :: 't' :: 'm' :: 'p' :: '/' :: 'f' :: 'o' :: 'o' :: '/' :: 'a' :: '.' :: 'j' :: 's' :: []) =
      some ('a' :: '.' :: 'j' :: 's' :: []) ∧
    normalizeToRepoRel ('x' :: []) ('a' :: '.' :: 'j' :: 's' :: []) =
      some ('a' :: '.' :: 'j' :: 's' :: []) :=
  ⟨by decide,
   c6_amended_idempotent_on_separator_free ('x' :: [])
     ('/' :: 't' :: 'm' :: 'p' :: '/' :: 'f' :: 'o' :: 'o' :: '/' :: 'a' :: '.' :: 'j' :: 's' :: [])
     ('a' :: '.' :: 'j' :: 's' :: []) (by decide) (by decide) (by decide)⟩

/- ## C3, C10: the trace parser's tolerance -/

/-- A line starting with `DA:` does not start with `SF:`. -/
theorem prefix_da_not_sf {raw : Str} (h : daTag.isPrefixOf raw = true) :
    sfTag.isPrefixOf raw = false := by
  cases raw with
  | nil => simp [daTag, List.isPrefixOf] at h
  | cons c rest =>
    simp only [daTag, List.isPrefixOf, Bool.and_eq_true, beq_iff_eq] at h
    obtain ⟨rfl, -⟩ := h
    simp [sfTag, List.isPrefixOf]

/-- A line starting with `DA:` is not the `end_of_record` marker. -/
theorem da_ne_eor {raw : Str} (h : daTag.isPrefixOf raw = true) : raw ≠ eorStr := by
  intro hr
  subst hr
  exact absurd h (by decide)

/-- A malformed `DA:` record (either field not a finite number) leaves the
parser state untouched. -/
theorem step_da_malformed {jsNum : Str → Option ℚ} {root : Str} {st : LcovState} {raw : Str}
    (hda : daTag.isPrefixOf raw = true) (hmal : daParse jsNum (raw.drop 3) = none) :
    parseLcovLine jsNum root st raw = st := by
  have hsf := prefix_da_not_sf hda
  unfold parseLcovLine
  cases ht : truthyStr st.current with
  | false => simp [hsf, hda, ht, da_ne_eor hda]
  | true => simp [hsf, hda, ht, hmal]

/-- **C3.** The trace parser is tolerant of malformed line-data pairs: for
every numeral interpretation, repository root and trace, deleting a single
`DA:` record whose line number or hit count does not parse as a finite
number leaves the resulting mapping *identical* — every other file's and
line's entry is intact and parsing continues for the rest of the trace. -/
theorem c3_parser_skips_malformed_record :
    ∀ (jsNum : Str → Option ℚ) (repoRoot : Str) (pre post : List Str) (raw : Str),
      daTag.isPrefixOf raw = true →
      daParse jsNum (raw.drop 3) = none →
      parseLcov jsNum repoRoot (pre ++ raw :: post) =
        parseLcov jsNum repoRoot (pre ++ post) := by
  intro jsNum root pre post raw hda hmal
  unfold parseLcov
  rw [List.foldl_append, List.foldl_append, List.foldl_cons, step_da_malformed hda hmal]

/-- A concrete decimal-digit numeral interpretation (a sound instance of
the abstracted JS `Number` coercion, for witnesses). -/
def digitsNum (s : Str) : Option ℚ :=
  if (!s.isEmpty) && s.all Char.isDigit then
    some ((s.foldl (fun n c => n * 10 + (c.toNat - 48)) 0 : Nat) : ℚ)
  else none

/-- Witness for C3: in a well-formed trace for `/r/a.js`, the malformed
record `DA:2,x` is skipped — the parse equals that of the trace without
it. -/
theorem c3_witness :
    daTag.isPrefixOf ("DA:2,x".toList) = true ∧
    daParse digitsNum (("DA:2,x".toList).drop 3) = none ∧
    parseLcov digitsNum ("/r".toList)
        (["SF:/r/a.js".toList, "DA:1,1".toList] ++
          "DA:2,x".toList :: ["DA:3,4".toList, "end_of_record".toList]) =
      parseLcov digitsNum ("/r".toList)
        (["SF:/r/a.js".toList, "DA:1,1".toList] ++ ["DA:3,4".toList, "end_of_record".toList]) :=
  ⟨by decide, by decide,
   c3_parser_skips_malformed_record digitsNum ("/r".toList)
     ["SF:/r/a.js".toList, "DA:1,1".toList] ["DA:3,4".toList, "end_of_record".toList]
     ("DA:2,x".toList) (by decide) (by decide)⟩

/-- A line is a source-file declaration. -/
def isSFLine (raw : Str) : Bool := sfTag.isPrefixOf raw

/-- A non-`SF:` line cannot make `currentFile` non-null. -/
theorem step_current_none {jsNum : Str → Option ℚ} {root : Str} {st : LcovState} {raw : Str}
    (hsf : isSFLine raw = false) (hc : st.current = none) :
    (parseLcovLine jsNum root st raw).current = none := by
  unfold isSFLine at hsf
  unfold parseLcovLine
  by_cases he : raw = eorStr
  · subst he
    simp [show ¬ (sfTag <+: eorStr) from by decide, show ¬ (daTag <+: eorStr) from by decide]
  · simp [hsf, hc, truthyStr, he]

/-- Folding any run of non-`SF:` lines preserves a null `currentFile`. -/
theorem fold_current_none {jsNum : Str → Option ℚ} {root : Str} {lines : List Str}
    {st : LcovState} (h : ∀ l ∈ lines, isSFLine l = false) (hc : st.current = none) :
    (lines.foldl (parseLcovLine jsNum root) st).current = none := by
  induction lines generalizing st with
  | nil => exact hc
  | cons raw rest ih =>
    rw [List.foldl_cons]
    exact ih (fun l hl => h l (List.mem_cons_of_mem raw hl))
      (step_current_none (h raw (List.mem_cons_self raw rest)) hc)

/-- The `end_of_record` marker closes the current section. -/
theorem step_eor_current {jsNum : Str → Option ℚ} {root : Str} (st : LcovState) :
    (parseLcovLine jsNum root st eorStr).current = none := by
  unfold parseLcovLine
  simp [show sfTag.isPrefixOf eorStr = false from by decide,
    show daTag.isPrefixOf eorStr = false from by decide]

/-- A `DA:` record met while no file section is open is a no-op. -/
theorem step_da_orphan_id {jsNum : Str → Option ℚ} {root : Str} {st : LcovState} {raw : Str}
    (hda : daTag.isPrefixOf raw = true) (hc : st.current = none) :
    parseLcovLine jsNum root st raw = st := by
  have hsf := prefix_da_not_sf hda
  unfold parseLcovLine
  simp [hsf, hc, truthyStr, da_ne_eor hda]

/-- **C10.** A line-data record occurring while no file section is open —
before the first `SF:` line, or after an `end_of_record` marker with no
`SF:` line in between — contributes nothing: the returned mapping equals
that of the trace with the orphan record deleted. -/
theorem c10_orphan_records_ignored :
    ∀ (jsNum : Str → Option ℚ) (repoRoot : Str) (pre post : List Str) (raw : Str),
      daTag.isPrefixOf raw = true →
      ((∀ l ∈ pre, isSFLine l = false) ∨
       (∃ p1 p2, pre = p1 ++ eorStr :: p2 ∧ ∀ l ∈ p2, isSFLine l = false)) →
      parseLcov jsNum repoRoot (pre ++ raw :: post) =
        parseLcov jsNum repoRoot (pre ++ post) := by
  intro jsNum root pre post raw hda H
  have hcur : (pre.foldl (parseLcovLine jsNum root) { files := [], current := none }).current
      = none := by
    rcases H with h1 | ⟨p1, p2, rfl, h2⟩
    · exact fold_current_none h1 rfl
    · rw [List.foldl_append, List.foldl_cons]
      exact fold_current_none h2 (step_eor_current _)
  unfold parseLcov
  rw [List.foldl_append, List.foldl_append, List.foldl_cons, step_da_orphan_id hda hcur]

/-- Witness for C10: a well-formed `DA:5,5` record after an
`end_of_record` marker (no open section) contributes nothing. -/
theorem c10_witness :
    daTag.isPrefixOf ("DA:5,5".toList) = true ∧
    (∀ l ∈ ["x".toList, "end_of_record".toList], isSFLine l = false) ∧
    parseLcov digitsNum ("/r".toList)
        (["x".toList, "end_of_record".toList] ++ "DA:5,5".toList :: []) =
      parseLcov digitsNum ("/r".toList) (["x".toList, "end_of_record".toList] ++ []) :=
  ⟨by decide, by decide,
   c10_orphan_records_ignored digitsNum ("/r".toList)
     ["x".toList, "end_of_record".toList] [] ("DA:5,5".toList)
     (by decide) (Or.inl (by decide))⟩

/- ## C4, C8: the comment synchronizer -/

theorem filter_eq_nil_of {α : Type} {p : α → Bool} {l : List α}
    (h : ∀ x ∈ l, p x = false) : l.filter p = [] := by
  induction l with
  | nil => rfl
  | cons a rest ih =>
    rw [List.filter_cons, h a (List.mem_cons_self a rest)]
    exact ih (fun x hx => h x (List.mem_cons_of_mem a hx))

theorem find?_append_none {α : Type} {p : α → Bool} {l1 l2 : List α}
    (h : ∀ x ∈ l1, p x = false) : (l1 ++ l2).find? p = l2.find? p := by
  induction l1 with
  | nil => rfl
  | cons a rest ih =>
    rw [List.cons_append, List.find?_cons, h a (List.mem_cons_self a rest)]
    exact ih (fun x hx => h x (List.mem_cons_of_mem a hx))

theorem find?_of_filter_singleton {α : Type} {p : α → Bool} {l : List α} {x : α}
    (h : l.filter p = [x]) : l.find? p = some x := by
  induction l with
  | nil => simp at h
  | cons a rest ih =>
    cases ha : p a with
    | true =>
      rw [List.filter_cons, ha] at h
      simp only [if_pos rfl] at h
      rw [List.find?_cons, ha]
      exact congrArg some (List.cons.inj h).1
    | false =>
      rw [List.filter_cons, ha] at h
      simp only [Bool.false_eq_true, if_false] at h
      rw [List.find?_cons, ha]
      exact ih h

theorem map_id_of_eq {α : Type} {l : List α} {f : α → α}
    (h : ∀ a ∈ l, f a = a) : l.map f = l := by
  induction l with
  | nil => rfl
  | cons a rest ih =>
    rw [List.map_cons, h a (List.mem_cons_self a rest),
      ih (fun x hx => h x (List.mem_cons_of_mem a hx))]

/-- **C4.** Running `upsertPrComment` twice with strategy `UPDATE`, the same
marker, and marker-bearing bodies, against a comment list with no marked
comment that only the two runs mutate, leaves exactly one marked comment —
the one created by the first call (id `st.nextId`) — and its body is the
body passed to the second call: the first call creates, the second edits in
place. -/
theorem c4_update_twice_one_marked_comment :
    ∀ (marker body1 body2 : Str) (st : PrState),
      (∀ c ∈ st.comments, jsIncludes c.body marker = false) →
      (∀ c ∈ st.comments, c.id < st.nextId) →
      jsIncludes body1 marker = true →
      jsIncludes body2 marker = true →
      (upsertPrComment updateStr marker body2
          (upsertPrComment updateStr marker body1 st)).comments.filter
        (fun c => jsIncludes c.body marker) =
        [{ id := st.nextId, body := body2 }] := by
  intro marker body1 body2 st h0 h1 hb1 hb2
  have hfind1 : findMarked st.comments marker = none := by
    unfold findMarked
    apply List.find?_eq_none.mpr
    intro x hx
    rw [h0 x hx]
    exact Bool.false_ne_true
  have hst1 : upsertPrComment updateStr marker body1 st = createComment body1 st := by
    unfold upsertPrComment
    rw [hfind1]
  rw [hst1]
  have hfind2 : findMarked (createComment body1 st).comments marker =
      some { id := st.nextId, body := body1 } := by
    unfold findMarked createComment
    simp only []
    rw [find?_append_none h0, List.find?_cons]
    simp only [hb1]
  have hup : upsertPrComment updateStr marker body2 (createComment body1 st) =
      updateComment st.nextId body2 (createComment body1 st) := by
    simp only [upsertPrComment, hfind2]
    rw [if_neg (by decide : ¬ updateStr = addStr),
      if_neg (by decide : ¬ updateStr = removeStr)]
  rw [hup]
  unfold updateComment createComment
  simp only [List.map_append]
  rw [map_id_of_eq (l := st.comments) (fun c hc => by
    rw [if_neg (Nat.ne_of_lt (h1 c hc))])]
  rw [List.filter_append, filter_eq_nil_of h0]
  simp [List.filter, hb2]

/-- Witness for C4: starting from one unmarked comment, two `UPDATE` runs
with marker `M` and bodies `M1`, `M2` end with exactly the single marked
comment `⟨1, M2⟩`. -/
theorem c4_witness :
    (∀ c ∈ [({ id := 0, body := "hello".toList } : Comment)],
      jsIncludes c.body ("M".toList) = false) ∧
    jsIncludes ("M1".toList) ("M".toList) = true ∧
    jsIncludes ("M2".toList) ("M".toList) = true ∧
    (upsertPrComment updateStr ("M".toList) ("M2".toList)
        (upsertPrComment updateStr ("M".toList) ("M1".toList)
          { comments := [{ id := 0, body := "hello".toList }], nextId := 1 })).comments.filter
      (fun c => jsIncludes c.body ("M".toList)) = [{ id := 1, body := "M2".toList }] :=
  ⟨by decide, by decide, by decide,
   c4_update_twice_one_marked_comment ("M".toList) ("M1".toList) ("M2".toList)
     { comments := [{ id := 0, body := "hello".toList }], nextId := 1 }
     (by decide) (by decide) (by decide) (by decide)⟩

/-- **C8.** With strategy `REMOVE`, starting from a comment list containing
exactly one marked comment `c0` (and a marker-bearing body, as `main`
always passes), the call deletes `c0` and creates a fresh comment: the
final list contains exactly one marked comment, and its identifier
`st.nextId` differs from `c0`'s. -/
theorem c8_remove_deletes_and_recreates :
    ∀ (marker body : Str) (st : PrState) (c0 : Comment),
      st.comments.filter (fun c => jsIncludes c.body marker) = [c0] →
      (∀ c ∈ st.comments, c.id < st.nextId) →
      jsIncludes body marker = true →
      ((upsertPrComment removeStr marker body st).comments.filter
          (fun c => jsIncludes c.body marker) = [{ id := st.nextId, body := body }] ∧
        st.nextId ≠ c0.id) := by
  intro marker body st c0 hone h1 hb
  have hc0mem : c0 ∈ st.comments := by
    have hm : c0 ∈ st.comments.filter (fun c => jsIncludes c.body marker) := by
      rw [hone]
      exact List.mem_singleton_self c0
    exact (List.mem_filter.mp hm).1
  have hfind : findMarked st.comments marker = some c0 := find?_of_filter_singleton hone
  have hup : upsertPrComment removeStr marker body st =
      createComment body (deleteComment c0.id st) := by
    simp only [upsertPrComment, hfind]
    rw [if_neg (by decide : ¬ removeStr = addStr)]
    simp
  rw [hup]
  refine ⟨?_, fun heq => absurd (h1 c0 hc0mem) (by omega)⟩
  unfold createComment deleteComment
  simp only []
  rw [List.filter_append]
  have hnil : (st.comments.filter (fun c => c.id ≠ c0.id)).filter
      (fun c => jsIncludes c.body marker) = [] := by
    apply filter_eq_nil_of
    intro x hx
    obtain ⟨hxl, hxid⟩ := List.mem_filter.mp hx
    cases hmx : jsIncludes x.body marker with
    | false => rfl
    | true =>
      have : x ∈ st.comments.filter (fun c => jsIncludes c.body marker) :=
        List.mem_filter.mpr ⟨hxl, hmx⟩
      rw [hone] at this
      obtain rfl := List.mem_singleton.mp this
      simp at hxid
  rw [hnil]
  simp [List.filter, hb]

/-- Witness for C8: from the single marked comment `⟨0, Mold⟩` (next id 2),
a `REMOVE` run with body `Mnew` ends with exactly the marked comment
`⟨2, Mnew⟩`, whose id differs from 0. -/
theorem c8_witness :
    ([({ id := 0, body := "Mold".toList } : Comment),
        { id := 1, body := "other".toList }].filter
      (fun c => jsIncludes c.body ("M".toList)) =
        [({ id := 0, body := "Mold".toList } : Comment)]) ∧
    jsIncludes ("Mnew".toList) ("M".toList) = true ∧
    ((upsertPrComment removeStr ("M".toList) ("Mnew".toList)
        { comments := [{ id := 0, body := "Mold".toList }, { id := 1, body := "other".toList }],
          nextId := 2 }).comments.filter
      (fun c => jsIncludes c.body ("M".toList)) = [{ id := 2, body := "Mnew".toList }] ∧
      (2 : Nat) ≠ ({ id := 0, body := "Mold".toList } : Comment).id) :=
  ⟨by decide, by decide,
   c8_remove_deletes_and_recreates ("M".toList) ("Mnew".toList)
     { comments := [{ id := 0, body := "Mold".toList }, { id := 1, body := "other".toList }],
       nextId := 2 }
     { id := 0, body := "Mold".toList }
     (by decide) (by decide) (by decide)⟩

end CodePainting
